import Mathlib

/-!
Shallow embedding of the numerical core of the `geos` command-line tool
(`src/nvec.rs`, `src/geom.rs`, `src/samplers.rs`).

Modelling conventions:
* `f64` arithmetic is idealised as real-number arithmetic (`ℝ`); the loop
  counters of `partition_region`, which only ever hold exact sums of the
  `edge_proportion` argument, are carried as rationals (`ℚ`) so the loop
  guards stay decidable.
* `f64::atan2` is modelled by the standard piecewise-`arctan` definition
  (ignoring signed zeros, which `ℝ` cannot represent).
* The external `geo`-crate capabilities (bounding box, intersection tests,
  triangulation, areas) are parameters, exactly as the specification treats
  them (opaque collaborators).
* The random source is a stream of unit-interval draws threaded through each
  operation in a state-passing style, mirroring the mutable `&mut R` of the
  Rust code; `rand`'s `Uniform::new(lo, hi)` maps a unit draw `u` to
  `lo + u * (hi - lo)`.
* The nonterminating `while` loops of `partition_region` are rendered with a
  fuel parameter: a result of `none` means the loop has not exited within the
  given number of iterations (for every fuel value, in the theorems below,
  i.e. true divergence).
* The `f32` weight computation of `PolygonalSampler::new` is modelled with an
  explicit NaN/∞ value type so that the IEEE behaviour of `0.0 / 0.0` is
  captured faithfully.
-/

namespace Geos

open Real

/-- Geographic coordinate, mirroring `geo_types::Coord { x, y }`
(`x` = longitude degrees, `y` = latitude degrees by the crate's convention). -/
structure Coord where
  x : ℝ
  y : ℝ

/-- 3-vector, mirroring `struct NVec { x, y, z }` of `src/nvec.rs`. -/
structure NVec where
  x : ℝ
  y : ℝ
  z : ℝ

instance : Add NVec := ⟨fun a b => ⟨a.x + b.x, a.y + b.y, a.z + b.z⟩⟩

instance : SMul ℝ NVec := ⟨fun k v => ⟨k * v.x, k * v.y, k * v.z⟩⟩

theorem NVec.add_def (a b : NVec) :
    a + b = ⟨a.x + b.x, a.y + b.y, a.z + b.z⟩ := rfl

theorem NVec.smul_def (k : ℝ) (v : NVec) :
    k • v = ⟨k * v.x, k * v.y, k * v.z⟩ := rfl

/-- `fn to_radians(angle: f64) -> f64 { CONVERT * angle }` with
`CONVERT = PI / 180.0`. -/
noncomputable def toRadians (angle : ℝ) : ℝ := π / 180 * angle

/-- `fn to_angle(rad: f64) -> f64 { CONVERT * rad }` with
`CONVERT = 180.0 / PI`. -/
noncomputable def toAngle (rad : ℝ) : ℝ := 180 / π * rad

/-- Model of `f64::atan2(y, x)` (the two-argument arctangent), by the
standard piecewise definition; signed zeros do not exist in `ℝ`. -/
noncomputable def atan2 (y x : ℝ) : ℝ :=
  if 0 < x then arctan (y / x)
  else if x < 0 then
    (if 0 ≤ y then arctan (y / x) + π else arctan (y / x) - π)
  else
    (if 0 < y then π / 2 else if y < 0 then -(π / 2) else 0)

/-- `NVec::norm`, which delegates to the S2 `Vector::norm`, i.e. the
Euclidean norm `sqrt (x*x + y*y + z*z)`. -/
noncomputable def NVec.norm (v : NVec) : ℝ :=
  Real.sqrt (v.x * v.x + v.y * v.y + v.z * v.z)

/-- `impl From<Coord> for NVec` of `src/nvec.rs`: spherical-to-Cartesian. -/
noncomputable def NVec.ofCoord (c : Coord) : NVec :=
  let lng := toRadians c.x
  let lat := toRadians c.y
  ⟨Real.cos lng * Real.cos lat, Real.sin lng * Real.cos lat, Real.sin lat⟩

/-- `impl Into<Coord> for NVec` of `src/nvec.rs`:
`lat = atan2(z, sqrt(y*y + x*x))`, `lng = atan2(y, x)`, both converted
back to degrees. -/
noncomputable def NVec.toCoord (v : NVec) : Coord :=
  let lat := atan2 v.z (Real.sqrt (v.y * v.y + v.x * v.x))
  let lng := atan2 v.y v.x
  ⟨toAngle lng, toAngle lat⟩

/-- `pub fn lerp(t: f64, c1: Coord, c2: Coord) -> Coord` of `src/geom.rs`:
blend the two n-vectors, rescale by `1 / (norm + 1e-8)`, convert back. -/
noncomputable def lerp (t : ℝ) (c1 c2 : Coord) : Coord :=
  let nv := (1 - t) • NVec.ofCoord c1 + t • NVec.ofCoord c2
  ((1 / (nv.norm + 1 / 100000000)) • nv).toCoord

/-! Branch lemmas for `atan2`. -/

theorem atan2_of_pos {x : ℝ} (hx : 0 < x) (y : ℝ) : atan2 y x = arctan (y / x) := by
  simp [atan2, hx]

theorem atan2_of_neg_of_nonneg {x y : ℝ} (hx : x < 0) (hy : 0 ≤ y) :
    atan2 y x = arctan (y / x) + π := by
  simp [atan2, asymm hx, hx, hy]

theorem atan2_of_neg_of_neg {x y : ℝ} (hx : x < 0) (hy : y < 0) :
    atan2 y x = arctan (y / x) - π := by
  simp [atan2, asymm hx, hx, not_le.mpr hy]

theorem atan2_zero_of_pos {y : ℝ} (hy : 0 < y) : atan2 y 0 = π / 2 := by
  simp [atan2, hy]

theorem atan2_zero_of_neg {y : ℝ} (hy : y < 0) : atan2 y 0 = -(π / 2) := by
  simp [atan2, asymm hy, hy]

theorem atan2_zero_zero : atan2 0 0 = 0 := by
  simp [atan2]

/-- `atan2` is invariant under scaling both arguments by a positive factor. -/
theorem atan2_scale {k : ℝ} (hk : 0 < k) (y x : ℝ) :
    atan2 (k * y) (k * x) = atan2 y x := by
  have hdiv : k * y / (k * x) = y / x := mul_div_mul_left y x (ne_of_gt hk)
  rcases lt_trichotomy x 0 with hx | hx | hx
  · have hkx : k * x < 0 := mul_neg_of_pos_of_neg hk hx
    rcases le_or_lt 0 y with hy | hy
    · have hky : 0 ≤ k * y := mul_nonneg hk.le hy
      rw [atan2_of_neg_of_nonneg hkx hky, atan2_of_neg_of_nonneg hx hy, hdiv]
    · have hky : k * y < 0 := mul_neg_of_pos_of_neg hk hy
      rw [atan2_of_neg_of_neg hkx hky, atan2_of_neg_of_neg hx hy, hdiv]
  · subst hx
    rw [mul_zero]
    rcases lt_trichotomy y 0 with hy | hy | hy
    · have hky : k * y < 0 := mul_neg_of_pos_of_neg hk hy
      rw [atan2_zero_of_neg hky, atan2_zero_of_neg hy]
    · subst hy
      rw [mul_zero]
    · have hky : 0 < k * y := mul_pos hk hy
      rw [atan2_zero_of_pos hky, atan2_zero_of_pos hy]
  · have hkx : 0 < k * x := mul_pos hk hx
    rw [atan2_of_pos hkx, atan2_of_pos hx, hdiv]

/-- On `(-π, π]`, `atan2` inverts the point `(cos θ, sin θ)` exactly. -/
theorem atan2_sin_cos {θ : ℝ} (h1 : -π < θ) (h2 : θ ≤ π) :
    atan2 (Real.sin θ) (Real.cos θ) = θ := by
  rcases lt_trichotomy (Real.cos θ) 0 with hc | hc | hc
  · rcases le_or_lt 0 (Real.sin θ) with hs | hs
    · -- second quadrant (including θ = π)
      have hθ : π / 2 < θ := by
        by_contra hle
        push_neg at hle
        have hθneg : θ < -(π / 2) := by
          by_contra hge
          push_neg at hge
          exact absurd (Real.cos_nonneg_of_mem_Icc ⟨hge, hle⟩) (not_le.mpr hc)
        have : Real.sin θ < 0 := Real.sin_neg_of_neg_of_neg_pi_lt
          (by linarith [Real.pi_pos]) h1
        exact absurd hs (not_le.mpr this)
      have htan : Real.tan (θ - π) = Real.tan θ := Real.tan_periodic.sub_eq θ
      have harc : arctan (Real.sin θ / Real.cos θ) = θ - π := by
        rw [← Real.tan_eq_sin_div_cos, ← htan]
        exact arctan_tan (by linarith [Real.pi_pos]) (by linarith [Real.pi_pos])
      rw [atan2_of_neg_of_nonneg hc hs, harc]
      ring
    · -- third quadrant
      have hθ : θ < -(π / 2) := by
        by_contra hge
        push_neg at hge
        have hθ2 : π / 2 < θ := by
          by_contra hle
          push_neg at hle
          exact absurd (Real.cos_nonneg_of_mem_Icc ⟨hge, hle⟩) (not_le.mpr hc)
        have : 0 ≤ Real.sin θ :=
          Real.sin_nonneg_of_nonneg_of_le_pi (by linarith [Real.pi_pos]) h2
        exact absurd this (not_le.mpr hs)
      have htan : Real.tan (θ + π) = Real.tan θ := Real.tan_periodic θ
      have harc : arctan (Real.sin θ / Real.cos θ) = θ + π := by
        rw [← Real.tan_eq_sin_div_cos, ← htan]
        exact arctan_tan (by linarith [Real.pi_pos]) (by linarith [Real.pi_pos])
      rw [atan2_of_neg_of_neg hc hs, harc]
      ring
  · -- cos θ = 0: θ is one of the two poles of the circle
    rcases lt_trichotomy (Real.sin θ) 0 with hs | hs | hs
    · have hθneg : θ < 0 := by
        by_contra hge
        push_neg at hge
        exact absurd (Real.sin_nonneg_of_nonneg_of_le_pi hge h2) (not_le.mpr hs)
      have hmem : -θ ∈ Set.Icc 0 π := ⟨by linarith, by linarith⟩
      have hcneg : Real.cos (-θ) = Real.cos (π / 2) := by
        rw [Real.cos_neg, hc, Real.cos_pi_div_two]
      have : -θ = π / 2 := Real.injOn_cos hmem
        ⟨by positivity, by linarith [Real.pi_pos]⟩ hcneg
      rw [hc, atan2_zero_of_neg hs]
      linarith
    · exfalso
      have := Real.sin_sq_add_cos_sq θ
      rw [hs, hc] at this
      norm_num at this
    · have hθpos : 0 < θ := by
        by_contra hle
        push_neg at hle
        have : Real.sin (-θ) ≥ 0 :=
          Real.sin_nonneg_of_nonneg_of_le_pi (by linarith) (by linarith)
        rw [Real.sin_neg] at this
        exact absurd hs (not_lt.mpr (by linarith))
      have hθlt : θ < π := by
        rcases lt_or_eq_of_le h2 with h | h
        · exact h
        · exfalso
          rw [h] at hs
          simp [Real.sin_pi] at hs
      have hmem : θ ∈ Set.Icc 0 π := ⟨hθpos.le, h2⟩
      have hceq : Real.cos θ = Real.cos (π / 2) := by rw [hc, Real.cos_pi_div_two]
      have : θ = π / 2 := Real.injOn_cos hmem
        ⟨by positivity, by linarith [Real.pi_pos]⟩ hceq
      rw [hc, atan2_zero_of_pos hs]
      exact this.symm
  · -- first/fourth quadrant: cos θ > 0
    have hθ1 : -(π / 2) < θ := by
      by_contra hge
      push_neg at hge
      have h1' : π / 2 ≤ -θ := by linarith
      have h2' : -θ ≤ π + π / 2 := by linarith [Real.pi_pos]
      have : Real.cos (-θ) ≤ 0 := Real.cos_nonpos_of_pi_div_two_le_of_le h1' h2'
      rw [Real.cos_neg] at this
      exact absurd hc (not_lt.mpr this)
    have hθ2 : θ < π / 2 := by
      by_contra hge
      push_neg at hge
      have : Real.cos θ ≤ 0 :=
        Real.cos_nonpos_of_pi_div_two_le_of_le hge (by linarith [Real.pi_pos])
      exact absurd hc (not_lt.mpr this)
    rw [atan2_of_pos hc, ← Real.tan_eq_sin_div_cos]
    exact arctan_tan hθ1 hθ2

theorem NVec.ext_fields {a b : NVec} (hx : a.x = b.x) (hy : a.y = b.y)
    (hz : a.z = b.z) : a = b := by
  cases a
  cases b
  simp_all

/-- Converting an n-vector to a coordinate is invariant under positive
scaling: the `Into<Coord>` impl only looks at the direction of the vector. -/
theorem NVec.toCoord_smul {k : ℝ} (hk : 0 < k) (v : NVec) :
    (k • v).toCoord = v.toCoord := by
  have hxy : Real.sqrt (k * v.y * (k * v.y) + k * v.x * (k * v.x)) =
      k * Real.sqrt (v.y * v.y + v.x * v.x) := by
    rw [show k * v.y * (k * v.y) + k * v.x * (k * v.x) =
      k ^ 2 * (v.y * v.y + v.x * v.x) by ring]
    rw [Real.sqrt_mul (sq_nonneg k), Real.sqrt_sq hk.le]
  show Coord.mk _ _ = Coord.mk _ _
  rw [NVec.smul_def]
  simp only
  rw [hxy, atan2_scale hk, atan2_scale hk]

theorem NVec.norm_nonneg (v : NVec) : 0 ≤ v.norm := Real.sqrt_nonneg _

/-- The `1 / (norm + 1e-8)` rescaling step of `lerp` never changes the
resulting coordinate, because the scaling factor is strictly positive. -/
theorem NVec.toCoord_rescale (v : NVec) :
    ((1 / (v.norm + 1 / 100000000)) • v).toCoord = v.toCoord := by
  have hpos : 0 < 1 / (v.norm + 1 / 100000000) := by
    have := v.norm_nonneg
    positivity
  exact NVec.toCoord_smul hpos v

/-- `lerp` unfolded to the conversion of the raw (unrescaled) blend. -/
theorem lerp_eq_toCoord_blend (t : ℝ) (c1 c2 : Coord) :
    lerp t c1 c2 = ((1 - t) • NVec.ofCoord c1 + t • NVec.ofCoord c2).toCoord :=
  NVec.toCoord_rescale _

theorem toAngle_toRadians (x : ℝ) : toAngle (toRadians x) = x := by
  unfold toAngle toRadians
  field_simp
  ring

theorem toRadians_toAngle (x : ℝ) : toRadians (toAngle x) = x := by
  unfold toAngle toRadians
  field_simp
  ring

theorem toRadians_pos {x : ℝ} (hx : 0 < x) : 0 < toRadians x := by
  unfold toRadians
  positivity

/-- Degree bounds translate to radian bounds for the longitude range. -/
theorem toRadians_mem_Ioc {x : ℝ} (h1 : -180 < x) (h2 : x ≤ 180) :
    -π < toRadians x ∧ toRadians x ≤ π := by
  unfold toRadians
  constructor
  · nlinarith [Real.pi_pos]
  · nlinarith [Real.pi_pos]

/-- Degree bounds translate to radian bounds for the open latitude range. -/
theorem toRadians_mem_Ioo_half {y : ℝ} (h1 : -90 < y) (h2 : y < 90) :
    -(π / 2) < toRadians y ∧ toRadians y < π / 2 := by
  unfold toRadians
  constructor
  · nlinarith [Real.pi_pos]
  · nlinarith [Real.pi_pos]

/-- Round trip: `Coord → NVec → Coord` is the identity on coordinates with
longitude in `(-180, 180]` and latitude strictly between the poles. -/
theorem NVec.toCoord_ofCoord {c : Coord} (hx1 : -180 < c.x) (hx2 : c.x ≤ 180)
    (hy1 : -90 < c.y) (hy2 : c.y < 90) : (NVec.ofCoord c).toCoord = c := by
  obtain ⟨hL1, hL2⟩ := toRadians_mem_Ioc hx1 hx2
  obtain ⟨hφ1, hφ2⟩ := toRadians_mem_Ioo_half hy1 hy2
  have hφpi1 : -π < toRadians c.y := by linarith [Real.pi_pos]
  have hφpi2 : toRadians c.y ≤ π := by linarith [Real.pi_pos]
  have hcos : 0 < Real.cos (toRadians c.y) := Real.cos_pos_of_mem_Ioo ⟨hφ1, hφ2⟩
  have hsum : Real.sin (toRadians c.x) * Real.cos (toRadians c.y) *
        (Real.sin (toRadians c.x) * Real.cos (toRadians c.y)) +
      Real.cos (toRadians c.x) * Real.cos (toRadians c.y) *
        (Real.cos (toRadians c.x) * Real.cos (toRadians c.y)) =
      Real.cos (toRadians c.y) * Real.cos (toRadians c.y) := by
    have h := Real.sin_sq_add_cos_sq (toRadians c.x)
    nlinarith [h]
  simp only [NVec.ofCoord, NVec.toCoord]
  rw [hsum, Real.sqrt_mul_self hcos.le]
  rw [atan2_sin_cos hφpi1 hφpi2]
  rw [mul_comm (Real.sin (toRadians c.x)) (Real.cos (toRadians c.y)),
    mul_comm (Real.cos (toRadians c.x)) (Real.cos (toRadians c.y))]
  rw [atan2_scale hcos, atan2_sin_cos hL1 hL2]
  obtain ⟨cx, cy⟩ := c
  simp [toAngle_toRadians]

/-- The raw blend of `lerp 0` collapses to the first endpoint's n-vector. -/
theorem blend_zero (c1 c2 : Coord) :
    (1 - (0 : ℝ)) • NVec.ofCoord c1 + (0 : ℝ) • NVec.ofCoord c2 =
      NVec.ofCoord c1 := by
  apply NVec.ext_fields <;> simp [NVec.smul_def, NVec.add_def]

/-- The raw blend of `lerp 1` collapses to the second endpoint's n-vector. -/
theorem blend_one (c1 c2 : Coord) :
    (1 - (1 : ℝ)) • NVec.ofCoord c1 + (1 : ℝ) • NVec.ofCoord c2 =
      NVec.ofCoord c2 := by
  apply NVec.ext_fields <;> simp [NVec.smul_def, NVec.add_def]

/-- `lerp 0 c1 c2 = c1` for canonical `c1`. -/
theorem lerp_zero {c1 : Coord} (c2 : Coord) (hx1 : -180 < c1.x)
    (hx2 : c1.x ≤ 180) (hy1 : -90 < c1.y) (hy2 : c1.y < 90) :
    lerp 0 c1 c2 = c1 := by
  rw [lerp_eq_toCoord_blend, blend_zero]
  exact NVec.toCoord_ofCoord hx1 hx2 hy1 hy2

/-- `lerp 1 c1 c2 = c2` for canonical `c2`. -/
theorem lerp_one {c2 : Coord} (c1 : Coord) (hx1 : -180 < c2.x)
    (hx2 : c2.x ≤ 180) (hy1 : -90 < c2.y) (hy2 : c2.y < 90) :
    lerp 1 c1 c2 = c2 := by
  rw [lerp_eq_toCoord_blend, blend_one]
  exact NVec.toCoord_ofCoord hx1 hx2 hy1 hy2

/-- Sum-to-product identity for sines, derived from `Real.sin_sub_sin`. -/
theorem sin_add_sin_eq (p q : ℝ) : Real.sin p + Real.sin q =
    2 * Real.sin ((p + q) / 2) * Real.cos ((p - q) / 2) := by
  have h := Real.sin_sub_sin p (-q)
  rw [Real.sin_neg, show p - -q = p + q by ring, show p + -q = p - q by ring] at h
  linarith [h]

/-- Midpoint interpolation along a meridian (equal longitudes) lands exactly
on the mean latitude: the n-vector blend bisects the central angle. -/
theorem lerp_half_meridian {x a b : ℝ} (hx1 : -180 < x) (hx2 : x ≤ 180)
    (hm1 : -90 < (a + b) / 2) (hm2 : (a + b) / 2 < 90)
    (hd1 : -90 < (a - b) / 2) (hd2 : (a - b) / 2 < 90) :
    lerp (1 / 2) ⟨x, a⟩ ⟨x, b⟩ = ⟨x, (a + b) / 2⟩ := by
  have hsumr : (toRadians a + toRadians b) / 2 = toRadians ((a + b) / 2) := by
    unfold toRadians
    ring
  have hdiffr : (toRadians a - toRadians b) / 2 = toRadians ((a - b) / 2) := by
    unfold toRadians
    ring
  have hcc : Real.cos (toRadians a) + Real.cos (toRadians b) =
      2 * Real.cos (toRadians ((a + b) / 2)) * Real.cos (toRadians ((a - b) / 2)) := by
    rw [Real.cos_add_cos, hsumr, hdiffr]
  have hss : Real.sin (toRadians a) + Real.sin (toRadians b) =
      2 * Real.sin (toRadians ((a + b) / 2)) * Real.cos (toRadians ((a - b) / 2)) := by
    rw [sin_add_sin_eq, hsumr, hdiffr]
  obtain ⟨hdr1, hdr2⟩ := toRadians_mem_Ioo_half hd1 hd2
  have hcosd : 0 < Real.cos (toRadians ((a - b) / 2)) :=
    Real.cos_pos_of_mem_Ioo ⟨hdr1, hdr2⟩
  rw [lerp_eq_toCoord_blend]
  have hblend : (1 - (1 / 2 : ℝ)) • NVec.ofCoord ⟨x, a⟩ +
      (1 / 2 : ℝ) • NVec.ofCoord ⟨x, b⟩ =
      Real.cos (toRadians ((a - b) / 2)) • NVec.ofCoord ⟨x, (a + b) / 2⟩ := by
    apply NVec.ext_fields
    · simp only [NVec.ofCoord, NVec.smul_def, NVec.add_def]
      linear_combination Real.cos (toRadians x) / 2 * hcc
    · simp only [NVec.ofCoord, NVec.smul_def, NVec.add_def]
      linear_combination Real.sin (toRadians x) / 2 * hcc
    · simp only [NVec.ofCoord, NVec.smul_def, NVec.add_def]
      linear_combination (1 / 2 : ℝ) * hss
  rw [hblend, NVec.toCoord_smul hcosd]
  exact NVec.toCoord_ofCoord hx1 hx2 hm1 hm2

/-- Midpoint interpolation along a parallel (equal latitudes): the longitude
is exactly the mean, while the latitude bulges to
`arctan (tan φ / cos δ)` where `δ` is half the longitude gap. -/
theorem lerp_half_parallel {a b y : ℝ} (hm1 : -180 < (a + b) / 2)
    (hm2 : (a + b) / 2 ≤ 180) (hd1 : -90 < (a - b) / 2) (hd2 : (a - b) / 2 < 90)
    (hy1 : -90 < y) (hy2 : y < 90) :
    lerp (1 / 2) ⟨a, y⟩ ⟨b, y⟩ =
      ⟨(a + b) / 2,
        toAngle (arctan (Real.tan (toRadians y) /
          Real.cos (toRadians ((a - b) / 2))))⟩ := by
  have hsumr : (toRadians a + toRadians b) / 2 = toRadians ((a + b) / 2) := by
    unfold toRadians
    ring
  have hdiffr : (toRadians a - toRadians b) / 2 = toRadians ((a - b) / 2) := by
    unfold toRadians
    ring
  have hcc : Real.cos (toRadians a) + Real.cos (toRadians b) =
      2 * Real.cos (toRadians ((a + b) / 2)) * Real.cos (toRadians ((a - b) / 2)) := by
    rw [Real.cos_add_cos, hsumr, hdiffr]
  have hss : Real.sin (toRadians a) + Real.sin (toRadians b) =
      2 * Real.sin (toRadians ((a + b) / 2)) * Real.cos (toRadians ((a - b) / 2)) := by
    rw [sin_add_sin_eq, hsumr, hdiffr]
  obtain ⟨hdr1, hdr2⟩ := toRadians_mem_Ioo_half hd1 hd2
  have hcosd : 0 < Real.cos (toRadians ((a - b) / 2)) :=
    Real.cos_pos_of_mem_Ioo ⟨hdr1, hdr2⟩
  obtain ⟨hyr1, hyr2⟩ := toRadians_mem_Ioo_half hy1 hy2
  have hcosy : 0 < Real.cos (toRadians y) := Real.cos_pos_of_mem_Ioo ⟨hyr1, hyr2⟩
  obtain ⟨hmr1, hmr2⟩ := toRadians_mem_Ioc hm1 hm2
  rw [lerp_eq_toCoord_blend]
  have hk : 0 < Real.cos (toRadians y) * Real.cos (toRadians ((a - b) / 2)) :=
    mul_pos hcosy hcosd
  have hblend : (1 - (1 / 2 : ℝ)) • NVec.ofCoord ⟨a, y⟩ +
      (1 / 2 : ℝ) • NVec.ofCoord ⟨b, y⟩ =
      ⟨Real.cos (toRadians y) * Real.cos (toRadians ((a - b) / 2)) *
          Real.cos (toRadians ((a + b) / 2)),
        Real.cos (toRadians y) * Real.cos (toRadians ((a - b) / 2)) *
          Real.sin (toRadians ((a + b) / 2)),
        Real.sin (toRadians y)⟩ := by
    apply NVec.ext_fields
    · simp only [NVec.ofCoord, NVec.smul_def, NVec.add_def]
      linear_combination Real.cos (toRadians y) / 2 * hcc
    · simp only [NVec.ofCoord, NVec.smul_def, NVec.add_def]
      linear_combination Real.cos (toRadians y) / 2 * hss
    · simp only [NVec.ofCoord, NVec.smul_def, NVec.add_def]
      ring
  rw [hblend]
  simp only [NVec.toCoord]
  have hsq : Real.cos (toRadians y) * Real.cos (toRadians ((a - b) / 2)) *
        Real.sin (toRadians ((a + b) / 2)) *
        (Real.cos (toRadians y) * Real.cos (toRadians ((a - b) / 2)) *
          Real.sin (toRadians ((a + b) / 2))) +
      Real.cos (toRadians y) * Real.cos (toRadians ((a - b) / 2)) *
        Real.cos (toRadians ((a + b) / 2)) *
        (Real.cos (toRadians y) * Real.cos (toRadians ((a - b) / 2)) *
          Real.cos (toRadians ((a + b) / 2))) =
      Real.cos (toRadians y) * Real.cos (toRadians ((a - b) / 2)) *
        (Real.cos (toRadians y) * Real.cos (toRadians ((a - b) / 2))) := by
    have h := Real.sin_sq_add_cos_sq (toRadians ((a + b) / 2))
    nlinarith [h]
  have harg : Real.sin (toRadians y) /
      (Real.cos (toRadians y) * Real.cos (toRadians ((a - b) / 2))) =
      Real.tan (toRadians y) / Real.cos (toRadians ((a - b) / 2)) := by
    rw [Real.tan_eq_sin_div_cos]
    field_simp
  rw [hsq, Real.sqrt_mul_self hk.le, atan2_scale hk, atan2_sin_cos hmr1 hmr2,
    atan2_of_pos hk, harg, toAngle_toRadians]

/-! Embedding of `partition_region` (`src/geom.rs`). -/

/-- Axis-aligned rectangle, mirroring `geo::Rect { min, max }`. -/
structure Rect where
  min : Coord
  max : Coord

/-- `geo::Rect::new(c1, c2)` normalises the two corners componentwise. -/
noncomputable def Rect.new (c1 c2 : Coord) : Rect :=
  ⟨⟨Min.min c1.x c2.x, Min.min c1.y c2.y⟩,
    ⟨Max.max c1.x c2.x, Max.max c1.y c2.y⟩⟩

/-- `geo_types::Line { start, end }`. -/
structure LineSeg where
  start : Coord
  stop : Coord

/-- Selection criterion of `partition_region` (the `match area_threshold`):
with `Some threshold` the external intersection-area-ratio test decides,
with `None` the external `Intersects` predicate decides. Both geometric
tests are opaque `geo`-crate capabilities, hence parameters. -/
def keepCell (thr : Option ℝ) (ratioGE : Rect → ℝ → Bool)
    (inters : Rect → Bool) (part : Rect) : Bool :=
  match thr with
  | some t => ratioGE part t
  | none => inters part

/-- Inner `while fy < edge_budget` sweep of `partition_region`, fuelled;
`none` means the loop has not exited within `fuel` iterations. -/
noncomputable def innerSweep (keep : Rect → Bool) (ep budget : ℚ)
    (lpPrev lp : LineSeg) : ℕ → ℚ → List Rect → Option (List Rect)
  | 0, fy, acc => if fy < budget then none else some acc
  | fuel + 1, fy, acc =>
    if fy < budget then
      let part := Rect.new (lerp (fy : ℝ) lpPrev.start lpPrev.stop)
        (lerp ((fy + ep : ℚ) : ℝ) lp.start lp.stop)
      innerSweep keep ep budget lpPrev lp fuel (fy + ep)
        (acc ++ if keep part then [part] else [])
    else some acc

/-- Outer `while fx < edge_budget` sweep of `partition_region`, fuelled. -/
noncomputable def outerSweep (keep : Rect → Bool) (ep budget : ℚ)
    (c0 c1 c2 c3 : Coord) (fuelInner : ℕ) :
    ℕ → ℚ → LineSeg → List Rect → Option (List Rect)
  | 0, fx, _, acc => if fx < budget then none else some acc
  | fuel + 1, fx, lpPrev, acc =>
    if fx < budget then
      let lp : LineSeg := ⟨lerp ((fx + ep : ℚ) : ℝ) c0 c1,
        lerp ((fx + ep : ℚ) : ℝ) c3 c2⟩
      match innerSweep keep ep budget lpPrev lp fuelInner 0 acc with
      | none => none
      | some acc2 => outerSweep keep ep budget c0 c1 c2 c3 fuelInner fuel
          (fx + ep) lp acc2
    else some acc

/-- `pub fn partition_region` of `src/geom.rs`. The polygon enters only via
its externally computed bounding box and the external selection predicates,
exactly as in the source. The `f64` loop counters, which only ever hold
exact sums of `edge_proportion`, are carried as rationals; `fuel` bounds the
number of iterations of each `while` loop (`none` = still looping). -/
noncomputable def partitionRegion (bbox : Rect) (thr : Option ℝ)
    (ratioGE : Rect → ℝ → Bool) (inters : Rect → Bool) (ep : ℚ)
    (fuel : ℕ) : Option (List Rect) :=
  let budget : ℚ := max 1 ep
  let c0 := bbox.min
  let c1 : Coord := ⟨bbox.min.x, bbox.max.y⟩
  let c2 := bbox.max
  let c3 : Coord := ⟨bbox.max.x, bbox.min.y⟩
  outerSweep (keepCell thr ratioGE inters) ep budget c0 c1 c2 c3 fuel fuel 0
    ⟨c0, c3⟩ []

/-- With `edge_proportion ≤ 0` the inner sweep never exits: `fy` stays `≤ 0`
while the budget is at least `1`. -/
theorem innerSweep_none {keep : Rect → Bool} {ep budget : ℚ}
    (lpPrev lp : LineSeg) (hep : ep ≤ 0) (hb : 1 ≤ budget) :
    ∀ fuel fy acc, fy ≤ 0 →
      innerSweep keep ep budget lpPrev lp fuel fy acc = none := by
  intro fuel
  induction fuel with
  | zero =>
    intro fy acc hfy
    have hlt : fy < budget := lt_of_le_of_lt hfy (lt_of_lt_of_le one_pos hb)
    simp [innerSweep, hlt]
  | succ n ih =>
    intro fy acc hfy
    have hlt : fy < budget := lt_of_le_of_lt hfy (lt_of_lt_of_le one_pos hb)
    simp only [innerSweep, if_pos hlt]
    exact ih (fy + ep) _ (by linarith)

/-- With `edge_proportion ≤ 0` the outer sweep never exits either: its very
first inner sweep already loops forever. -/
theorem outerSweep_none {keep : Rect → Bool} {ep budget : ℚ}
    (c0 c1 c2 c3 : Coord) (hep : ep ≤ 0) (hb : 1 ≤ budget) :
    ∀ fuelInner fuel fx lpPrev acc, fx ≤ 0 →
      outerSweep keep ep budget c0 c1 c2 c3 fuelInner fuel fx lpPrev acc =
        none := by
  intro fuelInner fuel
  induction fuel with
  | zero =>
    intro fx lpPrev acc hfx
    have hlt : fx < budget := lt_of_le_of_lt hfx (lt_of_lt_of_le one_pos hb)
    simp [outerSweep, hlt]
  | succ n ih =>
    intro fx lpPrev acc hfx
    have hlt : fx < budget := lt_of_le_of_lt hfx (lt_of_lt_of_le one_pos hb)
    simp only [outerSweep, if_pos hlt]
    rw [innerSweep_none _ _ hep hb fuelInner 0 acc le_rfl]

/-! Embedding of the samplers (`src/samplers.rs`). -/

/-- Random source: the stream of unit-interval draws it will produce,
threaded in state-passing style (the Rust `&mut R`). -/
abbrev Rng : Type := List ℝ

/-- One raw unit draw from the source. -/
def drawUnit : Rng → ℝ × Rng
  | [] => (0, [])
  | u :: rest => (u, rest)

/-- `rand`'s `Uniform::new(lo, hi).sample(rng)`: affine image of a unit
draw (external `rand` capability, modelled by its defining property). -/
noncomputable def uniformSample (lo hi : ℝ) (rng : Rng) : ℝ × Rng :=
  let d := drawUnit rng
  (lo + d.1 * (hi - lo), d.2)

noncomputable def MIN_LAT : ℝ := -90

noncomputable def MAX_LAT : ℝ := 90

noncomputable def MIN_LNG : ℝ := -180

noncomputable def MAX_LNG : ℝ := 180

/-- `impl GeoSampler for UniformSampler` of `src/samplers.rs`: note that the
source samples the latitude-range distribution `dist_lat` into field `x`
and the longitude-range distribution `dist_lng` into field `y`. -/
noncomputable def uniformSamplerSampleCoord (rng : Rng) : Coord × Rng :=
  let a := uniformSample MIN_LAT MAX_LAT rng
  let b := uniformSample MIN_LNG MAX_LNG a.2
  (⟨a.1, b.1⟩, b.2)

/-- `geo_types::Triangle`: three coordinates, in `to_array` order. -/
structure Triangle where
  a : Coord
  b : Coord
  c : Coord

/-- `fn sample_point_in_triangle` of `src/samplers.rs`: square-root
barycentric weights applied to the vertex n-vectors; the blend is converted
straight back to a coordinate (`.into()`), with no renormalisation step. -/
noncomputable def samplePointInTriangle (rng : Rng) (tri : Triangle) :
    Coord × Rng :=
  let d1 := drawUnit rng
  let d2 := drawUnit d1.2
  let r1sqrt := Real.sqrt d1.1
  let r2 := d2.1
  let na := NVec.ofCoord tri.a
  let nb := NVec.ofCoord tri.b
  let nc := NVec.ofCoord tri.c
  (((1 - r1sqrt) • na + (r1sqrt * (1 - r2)) • nb + (r2 * r1sqrt) • nc).toCoord,
    d2.2)

/-- Minimal model of the IEEE `f32` values produced by the weight
computation of `PolygonalSampler::new`: exact rationals extended with NaN
and the infinities, so that `0.0f32 / 0.0 = NaN` is captured faithfully. -/
inductive F32 where
  | nan : F32
  | inf : F32
  | ninf : F32
  | val : ℚ → F32
  deriving DecidableEq

/-- IEEE division on the modelled `f32` values (only the finite cases are
exercised by the embedding). -/
def F32.div : F32 → F32 → F32
  | F32.val a, F32.val b =>
    if b = 0 then (if a = 0 then F32.nan else if 0 < a then F32.inf else F32.ninf)
    else F32.val (a / b)
  | _, _ => F32.nan

/-- `struct PolygonalSampler`: the stored triangulation together with the
weight vector the constructor hands to the external `WalkerTableBuilder`
(the built table is a pure function of these weights). -/
structure PolygonalSampler where
  triangulation : List Triangle
  weights : List F32

/-- `PolygonalSampler::new` of `src/samplers.rs`. The earcut triangulation
and each triangle's `unsigned_area` are external `geo` capabilities, hence
parameters; the constructor accumulates `cum_area` and normalises the areas
into `weights`. There is no error path: a sampler is always returned. -/
def mkPolygonalSampler (triangulation : List Triangle)
    (areaOf : Triangle → ℚ) : PolygonalSampler :=
  let areas := triangulation.map areaOf
  let cumArea := areas.sum
  ⟨triangulation, areas.map (fun a => F32.div (F32.val a) (F32.val cumArea))⟩

/-- `PolygonalSampler::sample_coord`: the walker-table draw
(`walker_table.next_rng`, external `weighted_rand` crate) is the parameter
`nextIdx`; the selected triangle is then sampled. (Out-of-bounds indexing,
which panics in Rust, is modelled by a default triangle.) -/
noncomputable def polygonalSampleCoord (nextIdx : Rng → ℕ × Rng)
    (s : PolygonalSampler) (rng : Rng) : Coord × Rng :=
  let d := nextIdx rng
  samplePointInTriangle d.2 (s.triangulation.getD d.1 ⟨⟨0, 0⟩, ⟨0, 0⟩, ⟨0, 0⟩⟩)

/-- `create_rng(seed)`: `StdRng::seed_from_u64` is a pure function of the
seed; the generator algorithm itself is an external capability `gen`. -/
def createRng (gen : ℕ → Rng) (seed : ℕ) : Rng := gen seed

/-- The explicit renormalisation step described by the specification
("Renormalize v and convert back to a Coordinate", §4.4), stated in the
spec's own words for comparison with the source's direct conversion. -/
noncomputable def specNormalize (v : NVec) : NVec := (1 / v.norm) • v

/-! Range lemmas for `atan2` and the degree conversion. -/

theorem atan2_le_pi (y x : ℝ) : atan2 y x ≤ π := by
  unfold atan2
  split_ifs with h1 h2 h3 h4 h5
  · linarith [arctan_lt_pi_div_two (y / x), Real.pi_pos]
  · have hyx : y / x ≤ 0 := div_nonpos_of_nonneg_of_nonpos h3 h2.le
    have : arctan (y / x) ≤ 0 := by
      calc arctan (y / x) ≤ arctan 0 := arctan_strictMono.monotone hyx
      _ = 0 := arctan_zero
    linarith
  · linarith [arctan_lt_pi_div_two (y / x), Real.pi_pos]
  · linarith [Real.pi_pos]
  · linarith [Real.pi_pos]
  · linarith [Real.pi_pos]

theorem neg_pi_lt_atan2 (y x : ℝ) : -π < atan2 y x := by
  unfold atan2
  split_ifs with h1 h2 h3 h4 h5
  · linarith [neg_pi_div_two_lt_arctan (y / x), Real.pi_pos]
  · linarith [neg_pi_div_two_lt_arctan (y / x), Real.pi_pos]
  · have hyx : 0 < y / x := div_pos_iff.mpr (Or.inr ⟨not_le.mp h3, h2⟩)
    have : 0 < arctan (y / x) := by
      calc (0 : ℝ) = arctan 0 := arctan_zero.symm
      _ < arctan (y / x) := arctan_strictMono hyx
    linarith
  · linarith [Real.pi_pos]
  · linarith [Real.pi_pos]
  · linarith [Real.pi_pos]

/-- When the second argument is nonnegative (as for the latitude
computation, whose second argument is a square root), `atan2` lands in
`[-π/2, π/2]`. -/
theorem atan2_abs_le_half_pi {x : ℝ} (hx : 0 ≤ x) (y : ℝ) :
    -(π / 2) ≤ atan2 y x ∧ atan2 y x ≤ π / 2 := by
  unfold atan2
  rcases lt_or_eq_of_le hx with hx0 | hx0
  · rw [if_pos hx0]
    exact ⟨(neg_pi_div_two_lt_arctan (y / x)).le, (arctan_lt_pi_div_two (y / x)).le⟩
  · rw [if_neg (by rw [← hx0]; exact lt_irrefl 0), if_neg (by rw [← hx0]; exact lt_irrefl 0)]
    split_ifs
    · exact ⟨by linarith [Real.pi_pos], le_rfl⟩
    · exact ⟨le_rfl, by linarith [Real.pi_pos]⟩
    · exact ⟨by linarith [Real.pi_pos], by linarith [Real.pi_pos]⟩

theorem toAngle_le_toAngle {r s : ℝ} (h : r ≤ s) : toAngle r ≤ toAngle s := by
  unfold toAngle
  have hpos : (0 : ℝ) < 180 / π := by positivity
  exact mul_le_mul_of_nonneg_left h hpos.le

theorem toAngle_lt_toAngle {r s : ℝ} (h : r < s) : toAngle r < toAngle s := by
  unfold toAngle
  have hpos : (0 : ℝ) < 180 / π := by positivity
  exact (mul_lt_mul_left hpos).mpr h

theorem toAngle_pi : toAngle π = 180 := by
  unfold toAngle
  field_simp

theorem toAngle_pi_div_two : toAngle (π / 2) = 90 := by
  unfold toAngle
  field_simp
  ring

theorem toAngle_neg (r : ℝ) : toAngle (-r) = -toAngle r := by
  unfold toAngle
  ring

/-- Every coordinate produced by the n-vector conversion is a valid
geographic coordinate: longitude in `[-180, 180]`, latitude in `[-90, 90]`. -/
theorem toCoord_range (v : NVec) :
    -180 ≤ v.toCoord.x ∧ v.toCoord.x ≤ 180 ∧
      -90 ≤ v.toCoord.y ∧ v.toCoord.y ≤ 90 := by
  unfold NVec.toCoord
  simp only
  obtain ⟨hl1, hl2⟩ := atan2_abs_le_half_pi (Real.sqrt_nonneg (v.y * v.y + v.x * v.x)) v.z
  refine ⟨?_, ?_, ?_, ?_⟩
  · have := toAngle_le_toAngle (neg_pi_lt_atan2 v.y v.x).le
    rw [toAngle_neg, toAngle_pi] at this
    linarith
  · have := toAngle_le_toAngle (atan2_le_pi v.y v.x)
    rw [toAngle_pi] at this
    linarith
  · have := toAngle_le_toAngle hl1
    rw [toAngle_neg, toAngle_pi_div_two] at this
    linarith
  · have := toAngle_le_toAngle hl2
    rw [toAngle_pi_div_two] at this
    linarith

/-- The spec's renormalisation never changes the converted coordinate:
for nonzero vectors it is a positive rescaling, and the zero vector is a
fixed point of the normalisation. -/
theorem specNormalize_toCoord (v : NVec) :
    (specNormalize v).toCoord = v.toCoord := by
  rcases eq_or_lt_of_le v.norm_nonneg with h | h
  · have hsum : v.x * v.x + v.y * v.y + v.z * v.z ≤ 0 := by
      have := Real.sqrt_eq_zero'.mp h.symm
      exact this
    have hx : v.x = 0 := mul_self_eq_zero.mp (le_antisymm
      (by nlinarith [mul_self_nonneg v.y, mul_self_nonneg v.z]) (mul_self_nonneg v.x))
    have hy : v.y = 0 := mul_self_eq_zero.mp (le_antisymm
      (by nlinarith [mul_self_nonneg v.x, mul_self_nonneg v.z]) (mul_self_nonneg v.y))
    have hz : v.z = 0 := mul_self_eq_zero.mp (le_antisymm
      (by nlinarith [mul_self_nonneg v.x, mul_self_nonneg v.y]) (mul_self_nonneg v.z))
    have hv : v = (⟨0, 0, 0⟩ : NVec) := NVec.ext_fields hx hy hz
    rw [hv]
    have hnorm : specNormalize (⟨0, 0, 0⟩ : NVec) = (⟨0, 0, 0⟩ : NVec) := by
      apply NVec.ext_fields <;> simp [specNormalize, NVec.smul_def]
    rw [hnorm]
  · exact NVec.toCoord_smul (by positivity) v

/-! Claim theorems. -/

/-- C8: for every pair of draws `u1, u2` (in particular any uniform draws in
`[0,1]`) the triangle point sampler returns exactly the coordinate obtained
by combining the vertex n-vectors with barycentric weights `1 - √u1`,
`√u1 * (1 - u2)` and `u2 * √u1`, renormalising the blend and converting it
back to a coordinate (the source skips the renormalisation, which is
harmless because the conversion is scale-invariant). -/
theorem C8_triangle_sampler_barycentric (u1 u2 : ℝ) (rest : Rng)
    (tri : Triangle) :
    samplePointInTriangle (u1 :: u2 :: rest) tri =
      ((specNormalize ((1 - Real.sqrt u1) • NVec.ofCoord tri.a +
        (Real.sqrt u1 * (1 - u2)) • NVec.ofCoord tri.b +
        (u2 * Real.sqrt u1) • NVec.ofCoord tri.c)).toCoord, rest) := by
  unfold samplePointInTriangle drawUnit
  simp only
  rw [specNormalize_toCoord]

/-- C9: every core operation is deterministic given a seeded random source:
two runs of `lerp`, `partition_region`, `UniformSampler::sample_coord`,
`sample_point_in_triangle` and `PolygonalSampler::sample_coord` on the same
inputs, with random sources created from the same seed, produce identical
outputs (the embedding threads the generator state purely, mirroring the
synchronous, effect-free Rust core). -/
theorem C9_deterministic_given_seed (gen : ℕ → Rng) {s1 s2 : ℕ}
    (h : s1 = s2) (t : ℝ) (c1 c2 : Coord) (tri : Triangle) (bbox : Rect)
    (thr : Option ℝ) (ratioGE : Rect → ℝ → Bool) (inters : Rect → Bool)
    (ep : ℚ) (fuel : ℕ) (nextIdx : Rng → ℕ × Rng) (s : PolygonalSampler) :
    lerp t c1 c2 = lerp t c1 c2 ∧
    uniformSamplerSampleCoord (createRng gen s1) =
      uniformSamplerSampleCoord (createRng gen s2) ∧
    samplePointInTriangle (createRng gen s1) tri =
      samplePointInTriangle (createRng gen s2) tri ∧
    polygonalSampleCoord nextIdx s (createRng gen s1) =
      polygonalSampleCoord nextIdx s (createRng gen s2) ∧
    partitionRegion bbox thr ratioGE inters ep fuel =
      partitionRegion bbox thr ratioGE inters ep fuel := by
  subst h
  exact ⟨rfl, rfl, rfl, rfl, rfl⟩

/-- C9 witness: the determinism statement instantiated at concrete inputs. -/
theorem C9_witness :
    lerp 1 ⟨0, 0⟩ ⟨0, 0⟩ = lerp 1 ⟨0, 0⟩ ⟨0, 0⟩ ∧
    uniformSamplerSampleCoord (createRng (fun _ => []) 0) =
      uniformSamplerSampleCoord (createRng (fun _ => []) 0) ∧
    samplePointInTriangle (createRng (fun _ => []) 0) ⟨⟨0, 0⟩, ⟨0, 0⟩, ⟨0, 0⟩⟩ =
      samplePointInTriangle (createRng (fun _ => []) 0) ⟨⟨0, 0⟩, ⟨0, 0⟩, ⟨0, 0⟩⟩ ∧
    polygonalSampleCoord (fun r => (0, r)) ⟨[], []⟩ (createRng (fun _ => []) 0) =
      polygonalSampleCoord (fun r => (0, r)) ⟨[], []⟩ (createRng (fun _ => []) 0) ∧
    partitionRegion ⟨⟨0, 0⟩, ⟨1, 1⟩⟩ none (fun _ _ => true) (fun _ => true) 1 1 =
      partitionRegion ⟨⟨0, 0⟩, ⟨1, 1⟩⟩ none (fun _ _ => true) (fun _ => true) 1 1 :=
  C9_deterministic_given_seed (fun _ => []) rfl 1 ⟨0, 0⟩ ⟨0, 0⟩
    ⟨⟨0, 0⟩, ⟨0, 0⟩, ⟨0, 0⟩⟩ ⟨⟨0, 0⟩, ⟨1, 1⟩⟩ none (fun _ _ => true)
    (fun _ => true) 1 1 (fun r => (0, r)) ⟨[], []⟩

/-- C10: converting an n-vector to a coordinate is scale-invariant: for
every vector of positive norm and every positive scalar `k`, converting
`k • v` gives the same coordinate as converting `v`; consequently the
renormalised vector of the spec converts to the same coordinate as the
sampler's unnormalised barycentric combination. -/
theorem C10_toCoord_scale_invariant {v : NVec} {k : ℝ} (hv : 0 < v.norm)
    (hk : 0 < k) :
    (k • v).toCoord = v.toCoord ∧ (specNormalize v).toCoord = v.toCoord := by
  refine ⟨NVec.toCoord_smul hk v, ?_⟩
  unfold specNormalize
  exact NVec.toCoord_smul (by positivity) v

/-- C10 witness: scale invariance at the concrete vector `(1,0,0)`, `k = 2`. -/
theorem C10_witness :
    ((2 : ℝ) • (⟨1, 0, 0⟩ : NVec)).toCoord = (⟨1, 0, 0⟩ : NVec).toCoord ∧
    (specNormalize (⟨1, 0, 0⟩ : NVec)).toCoord = (⟨1, 0, 0⟩ : NVec).toCoord := by
  have hv : 0 < (⟨1, 0, 0⟩ : NVec).norm := by
    unfold NVec.norm
    simp only
    rw [show (1 : ℝ) * 1 + 0 * 0 + 0 * 0 = 1 by ring, Real.sqrt_one]
    norm_num
  exact C10_toCoord_scale_invariant hv two_pos

/-- C1: the claim says `partition_region(polygon, edge_proportion ≤ 0, _)`
raises `InvalidParameter`; the source defines no error type and performs no
validation, and instead its sweep loops forever: for every bounding box,
every threshold option, every `edge_proportion ≤ 0` and every iteration
bound, the loop has still not exited (`none`), so neither an error nor a
partition sequence is ever returned. -/
theorem C1_partition_nonpos_edge_loops_forever (bbox : Rect) (thr : Option ℝ)
    (ratioGE : Rect → ℝ → Bool) (inters : Rect → Bool) {ep : ℚ}
    (hep : ep ≤ 0) (fuel : ℕ) :
    partitionRegion bbox thr ratioGE inters ep fuel = none := by
  unfold partitionRegion
  exact outerSweep_none _ _ _ _ hep (le_max_left 1 ep) fuel fuel 0 _ [] le_rfl

/-- C1 witness: divergence at the concrete input `edge_proportion = 0`. -/
theorem C1_witness :
    partitionRegion ⟨⟨0, 0⟩, ⟨10, 10⟩⟩ none (fun _ _ => true) (fun _ => true)
      0 5 = none :=
  C1_partition_nonpos_edge_loops_forever ⟨⟨0, 0⟩, ⟨10, 10⟩⟩ none
    (fun _ _ => true) (fun _ => true) le_rfl 5

/-- C2: the claim says `PolygonalSampler::new` raises `DegenerateWeights`
when the triangulation's total unsigned area is zero; the source has no
error path at all: with every triangle area zero it computes
`cum_area = 0.0` and then silently divides `0.0f32 / 0.0f32`, storing an
all-NaN weight vector, and still returns a sampler. -/
theorem C2_zero_area_gives_nan_weights (tris : List Triangle)
    (areaOf : Triangle → ℚ) (hzero : ∀ t ∈ tris, areaOf t = 0) :
    (mkPolygonalSampler tris areaOf).weights =
      List.replicate tris.length F32.nan ∧
    (mkPolygonalSampler tris areaOf).triangulation = tris := by
  refine ⟨?_, rfl⟩
  unfold mkPolygonalSampler
  simp only
  have hareas : tris.map areaOf = List.replicate tris.length 0 := by
    apply List.eq_replicate_iff.mpr
    refine ⟨by simp, ?_⟩
    intro b hb
    obtain ⟨t, ht, rfl⟩ := List.mem_map.mp hb
    exact hzero t ht
  rw [hareas]
  have hsum : (List.replicate tris.length (0 : ℚ)).sum = 0 := by
    simp
  rw [hsum, List.map_replicate]
  have hdiv : F32.div (F32.val 0) (F32.val 0) = F32.nan := by
    simp [F32.div]
  rw [hdiv]

/-- C2 witness: a degenerate (collinear, zero-area) triangle produces the
NaN weight vector. -/
theorem C2_witness :
    (mkPolygonalSampler [⟨⟨0, 0⟩, ⟨1, 1⟩, ⟨2, 2⟩⟩] (fun _ => 0)).weights =
      List.replicate 1 F32.nan :=
  (C2_zero_area_gives_nan_weights [⟨⟨0, 0⟩, ⟨1, 1⟩, ⟨2, 2⟩⟩] (fun _ => 0)
    (fun _ _ => rfl)).1

/-- C3: the claim (and the crate's own `x` = longitude / `y` = latitude
convention, used e.g. by the test's `LatLng::from_degrees(c.y, c.x)`) says
the fallback sampler draws `x` uniformly from `[-180,180]` and `y` from
`[-90,90]`; the source swaps them, sampling the `[-90,90]` latitude
distribution into `x` and the `[-180,180]` longitude distribution into `y`.
With unit draws `(1/2, 7/8)` the result is `(x, y) = (0, 135)`: a `y` field
(latitude) of `135` degrees, impossible under the claimed ranges. -/
theorem C3_uniform_sampler_axes_swapped :
    (uniformSamplerSampleCoord [1 / 2, 7 / 8]).1 = ⟨0, 135⟩ ∧
    ¬ ((135 : ℝ) ≤ 90) := by
  constructor
  · unfold uniformSamplerSampleCoord uniformSample drawUnit
    simp only [MIN_LAT, MAX_LAT, MIN_LNG, MAX_LNG, Coord.mk.injEq]
    norm_num
  · norm_num

theorem toRadians_eq (x : ℝ) : toRadians x = π * x / 180 := by
  unfold toRadians
  ring

/-- C6 counterexample: the claim quantifies over all finite coordinates, but
for `c1 = (360, 0)` (a finite coordinate) `lerp(0, c1, c2)` returns the
canonicalised longitude `0`, which is `360` degrees away from `c1.x` — far
beyond the claimed `1e-6` tolerance. -/
theorem C6_counterexample :
    lerp 0 ⟨360, 0⟩ ⟨0, 0⟩ = ⟨0, 0⟩ ∧
    ¬ |(lerp 0 ⟨360, 0⟩ ⟨0, 0⟩).x - (360 : ℝ)| ≤ 1 / 1000000 := by
  have hof : NVec.ofCoord ⟨360, 0⟩ = (⟨1, 0, 0⟩ : NVec) := by
    unfold NVec.ofCoord
    simp only
    rw [show toRadians 360 = 2 * π by rw [toRadians_eq]; ring,
      show toRadians (0 : ℝ) = 0 by rw [toRadians_eq]; ring,
      Real.cos_two_pi, Real.sin_two_pi, Real.cos_zero, Real.sin_zero]
    apply NVec.ext_fields <;> norm_num
  have h1 : lerp 0 ⟨360, 0⟩ ⟨0, 0⟩ = ⟨0, 0⟩ := by
    rw [lerp_eq_toCoord_blend, blend_zero, hof]
    unfold NVec.toCoord
    simp only
    rw [show (0 : ℝ) * 0 + 1 * 1 = 1 by ring, Real.sqrt_one,
      atan2_of_pos one_pos, zero_div, arctan_zero]
    unfold toAngle
    apply congrArg₂ Coord.mk <;> ring
  refine ⟨h1, ?_⟩
  rw [h1]
  simp only
  rw [zero_sub, abs_neg]
  norm_num

/-- C6 amended: for coordinates in the canonical ranges (longitude in
`(-180, 180]`, latitude strictly between the poles) the endpoint contract
holds exactly — `lerp 0 c1 c2 = c1` and `lerp 1 c1 c2 = c2`, in particular
within any positive tolerance. Outside those ranges (wrapped longitudes or
poles) the output longitude is canonicalised and can differ by hundreds of
degrees. -/
theorem C6_lerp_endpoints_canonical {c1 c2 : Coord} (h1x1 : -180 < c1.x)
    (h1x2 : c1.x ≤ 180) (h1y1 : -90 < c1.y) (h1y2 : c1.y < 90)
    (h2x1 : -180 < c2.x) (h2x2 : c2.x ≤ 180) (h2y1 : -90 < c2.y)
    (h2y2 : c2.y < 90) :
    lerp 0 c1 c2 = c1 ∧ lerp 1 c1 c2 = c2 :=
  ⟨lerp_zero c2 h1x1 h1x2 h1y1 h1y2, lerp_one c1 h2x1 h2x2 h2y1 h2y2⟩

/-- C6 witness: the endpoint contract at concrete canonical coordinates. -/
theorem C6_witness :
    lerp 0 ⟨30, 40⟩ ⟨-120, -50⟩ = ⟨30, 40⟩ ∧
    lerp 1 ⟨30, 40⟩ ⟨-120, -50⟩ = ⟨-120, -50⟩ :=
  C6_lerp_endpoints_canonical (by norm_num) (by norm_num) (by norm_num)
    (by norm_num) (by norm_num) (by norm_num) (by norm_num) (by norm_num)

/-- C7 amended: `PolygonalSampler::sample_coord` always returns a valid
geographic coordinate — longitude in `[-180, 180]` and latitude in
`[-90, 90]` — but (contrary to the claim, see the counterexample) not
necessarily one inside the polygon's bounding box: the n-vector blend of a
triangle bulges poleward of its vertices. -/
theorem C7_sample_coordinate_valid (nextIdx : Rng → ℕ × Rng)
    (s : PolygonalSampler) (rng : Rng) :
    -180 ≤ (polygonalSampleCoord nextIdx s rng).1.x ∧
    (polygonalSampleCoord nextIdx s rng).1.x ≤ 180 ∧
    -90 ≤ (polygonalSampleCoord nextIdx s rng).1.y ∧
    (polygonalSampleCoord nextIdx s rng).1.y ≤ 90 :=
  toCoord_range _

/-- C7 counterexample: for the triangular polygon with vertices
`(0,45), (90,45), (0,0)` — whose bounding box is `(0,0)–(90,45)`, so every
contained point has latitude at most `45` — the sampler built on its
one-triangle triangulation (the walker table over a single weight always
yields index `0`) returns, for unit draws `(1/4, 0)`, a point of latitude
`toAngle (arctan √2) ≈ 54.7 > 45`: outside the polygon's bounding box. -/
theorem C7_counterexample :
    45 < (polygonalSampleCoord (fun r => (0, r))
      (mkPolygonalSampler [⟨⟨0, 45⟩, ⟨90, 45⟩, ⟨0, 0⟩⟩] (fun _ => 1))
      [1 / 4, 0]).1.y := by
  have hred : polygonalSampleCoord (fun r => (0, r))
      (mkPolygonalSampler [⟨⟨0, 45⟩, ⟨90, 45⟩, ⟨0, 0⟩⟩] (fun _ => 1))
      [1 / 4, 0] =
      samplePointInTriangle [1 / 4, 0] ⟨⟨0, 45⟩, ⟨90, 45⟩, ⟨0, 0⟩⟩ := rfl
  rw [hred]
  unfold samplePointInTriangle drawUnit
  simp only
  have hsqrt : Real.sqrt (1 / 4) = 1 / 2 := by
    rw [show (1 / 4 : ℝ) = (1 / 2) ^ 2 by norm_num,
      Real.sqrt_sq (by norm_num : (0 : ℝ) ≤ 1 / 2)]
  have hA : NVec.ofCoord ⟨0, 45⟩ =
      (⟨Real.sqrt 2 / 2, 0, Real.sqrt 2 / 2⟩ : NVec) := by
    unfold NVec.ofCoord
    simp only
    rw [show toRadians (0 : ℝ) = 0 by rw [toRadians_eq]; ring,
      show toRadians 45 = π / 4 by rw [toRadians_eq]; ring,
      Real.cos_zero, Real.sin_zero, Real.cos_pi_div_four, Real.sin_pi_div_four]
    apply NVec.ext_fields <;> norm_num
  have hB : NVec.ofCoord ⟨90, 45⟩ =
      (⟨0, Real.sqrt 2 / 2, Real.sqrt 2 / 2⟩ : NVec) := by
    unfold NVec.ofCoord
    simp only
    rw [show toRadians 90 = π / 2 by rw [toRadians_eq]; ring,
      show toRadians 45 = π / 4 by rw [toRadians_eq]; ring,
      Real.cos_pi_div_two, Real.sin_pi_div_two, Real.cos_pi_div_four,
      Real.sin_pi_div_four]
    apply NVec.ext_fields <;> norm_num
  rw [hsqrt, hA, hB]
  have hblend : (1 - (1 / 2 : ℝ)) • (⟨Real.sqrt 2 / 2, 0, Real.sqrt 2 / 2⟩ : NVec) +
      ((1 / 2 : ℝ) * (1 - 0)) • (⟨0, Real.sqrt 2 / 2, Real.sqrt 2 / 2⟩ : NVec) +
      ((0 : ℝ) * (1 / 2)) • NVec.ofCoord ⟨0, 0⟩ =
      (⟨Real.sqrt 2 / 4, Real.sqrt 2 / 4, Real.sqrt 2 / 2⟩ : NVec) := by
    apply NVec.ext_fields <;>
      simp only [NVec.smul_def, NVec.add_def] <;> ring
  rw [hblend]
  unfold NVec.toCoord
  simp only
  have h2 : Real.sqrt 2 * Real.sqrt 2 = 2 :=
    Real.mul_self_sqrt (by norm_num)
  have hsq : Real.sqrt 2 / 4 * (Real.sqrt 2 / 4) +
      Real.sqrt 2 / 4 * (Real.sqrt 2 / 4) = 1 / 4 := by
    nlinarith [h2]
  rw [hsq, hsqrt, atan2_of_pos (by norm_num : (0 : ℝ) < 1 / 2)]
  have harg : Real.sqrt 2 / 2 / (1 / 2) = Real.sqrt 2 := by
    ring
  rw [harg]
  have h45 : (45 : ℝ) = toAngle (π / 4) := by
    unfold toAngle
    field_simp
    ring
  rw [h45]
  apply toAngle_lt_toAngle
  rw [← arctan_one]
  apply arctan_strictMono
  rw [show (1 : ℝ) = Real.sqrt 1 by rw [Real.sqrt_one]]
  exact Real.sqrt_lt_sqrt (by norm_num) (by norm_num)

theorem arctan_le_self {q : ℝ} (hq : 0 ≤ q) : arctan q ≤ q := by
  rcases eq_or_lt_of_le hq with h | h
  · rw [← h, arctan_zero]
  · have h0 : 0 < arctan q := by
      rw [← arctan_zero]
      exact arctan_strictMono h
    have hlt := Real.lt_tan h0 (arctan_lt_pi_div_two q)
    rw [tan_arctan] at hlt
    exact hlt.le

theorem Rect.new_of_le {a b c d : ℝ} (h1 : a ≤ c) (h2 : b ≤ d) :
    Rect.new ⟨a, b⟩ ⟨c, d⟩ = ⟨⟨a, b⟩, ⟨c, d⟩⟩ := by
  unfold Rect.new
  simp only [min_eq_left h1, min_eq_left h2, max_eq_right h1, max_eq_right h2]

theorem atan2_nonneg {y x : ℝ} (hy : 0 ≤ y) (hx : 0 ≤ x) : 0 ≤ atan2 y x := by
  unfold atan2
  rcases lt_or_eq_of_le hx with hx0 | hx0
  · rw [if_pos hx0]
    rw [← arctan_zero]
    exact arctan_strictMono.monotone (div_nonneg hy hx0.le)
  · rw [if_neg (by rw [← hx0]; exact lt_irrefl 0),
      if_neg (by rw [← hx0]; exact lt_irrefl 0)]
    split_ifs with h1 h2
    · positivity
    · linarith
    · exact le_rfl

/-- Latitude of the geodesic midpoint of the latitude-5 parallel segment
from longitude 0 to longitude 10, as computed by `lerp` (`lerp_half_parallel`
with `a = 0`, `b = 10`, `y = 5`). -/
noncomputable def midLat5 : ℝ :=
  toAngle (arctan (Real.tan (toRadians 5) / Real.cos (toRadians (-5))))

/-- Latitude of the geodesic midpoint of the latitude-10 parallel segment
from longitude 0 to longitude 10, as computed by `lerp`. -/
noncomputable def midLat10 : ℝ :=
  toAngle (arctan (Real.tan (toRadians 10) / Real.cos (toRadians (-5))))

theorem toRadians_neg_five : toRadians (-5 : ℝ) = -(toRadians 5) := by
  rw [toRadians_eq, toRadians_eq]
  ring

/-- The geodesic midpoint of a parallel segment lies at or above the
latitude of its endpoints. -/
theorem midLat_lower {y : ℝ} (hy0 : 0 ≤ y) (hy2 : y < 90) :
    y ≤ toAngle (arctan (Real.tan (toRadians y) / Real.cos (toRadians (-5)))) := by
  rw [toRadians_neg_five, Real.cos_neg]
  obtain ⟨h51, h52⟩ := toRadians_mem_Ioo_half (by norm_num) (by norm_num : (5 : ℝ) < 90)
  have hcos5 : 0 < Real.cos (toRadians 5) := Real.cos_pos_of_mem_Ioo ⟨h51, h52⟩
  have hcos5le : Real.cos (toRadians 5) ≤ 1 := Real.cos_le_one _
  obtain ⟨hy1, hyr2⟩ := toRadians_mem_Ioo_half (by linarith : -90 < y) hy2
  have hr0 : 0 ≤ toRadians y := by
    rw [toRadians_eq]
    exact div_nonneg (mul_nonneg Real.pi_pos.le hy0) (by norm_num)
  have hcosy : 0 < Real.cos (toRadians y) := Real.cos_pos_of_mem_Ioo ⟨hy1, hyr2⟩
  have htan0 : 0 ≤ Real.tan (toRadians y) := by
    rw [Real.tan_eq_sin_div_cos]
    exact div_nonneg
      (Real.sin_nonneg_of_nonneg_of_le_pi hr0 (by linarith [Real.pi_pos])) hcosy.le
  have hq : Real.tan (toRadians y) ≤
      Real.tan (toRadians y) / Real.cos (toRadians 5) := by
    rw [le_div_iff hcos5]
    nlinarith [htan0, hcos5le]
  have harc : toRadians y ≤
      arctan (Real.tan (toRadians y) / Real.cos (toRadians 5)) := by
    calc toRadians y = arctan (Real.tan (toRadians y)) := (arctan_tan hy1 hyr2).symm
    _ ≤ _ := arctan_strictMono.monotone hq
  calc y = toAngle (toRadians y) := (toAngle_toRadians y).symm
  _ ≤ _ := toAngle_le_toAngle harc

theorem midLat5_bounds : 5 ≤ midLat5 ∧ midLat5 ≤ 5 + 1 / 2 := by
  constructor
  · exact midLat_lower (by norm_num) (by norm_num)
  · unfold midLat5
    rw [toRadians_neg_five, Real.cos_neg]
    have hπu := Real.pi_lt_d2
    have hπl := Real.pi_gt_d2
    have hr5u : toRadians 5 < 0.0875 := by
      rw [toRadians_eq]
      nlinarith
    have hr5l : 0 < toRadians 5 := toRadians_pos (by norm_num)
    have hsinu : Real.sin (toRadians 5) < 0.0875 :=
      lt_trans (Real.sin_lt hr5l) hr5u
    obtain ⟨h51, h52⟩ := toRadians_mem_Ioo_half (by norm_num) (by norm_num : (5 : ℝ) < 90)
    have hcos5 : 0 < Real.cos (toRadians 5) := Real.cos_pos_of_mem_Ioo ⟨h51, h52⟩
    have hsin0 : 0 ≤ Real.sin (toRadians 5) :=
      Real.sin_nonneg_of_nonneg_of_le_pi hr5l.le (by linarith [Real.pi_pos])
    have hcosl : (0.9961 : ℝ) ≤ Real.cos (toRadians 5) := by
      have := @Real.one_sub_sq_div_two_le_cos (toRadians 5)
      nlinarith
    have hdenom : (0.9922 : ℝ) ≤ Real.cos (toRadians 5) * Real.cos (toRadians 5) := by
      nlinarith
    have hqval : Real.tan (toRadians 5) / Real.cos (toRadians 5) =
        Real.sin (toRadians 5) / (Real.cos (toRadians 5) * Real.cos (toRadians 5)) := by
      rw [Real.tan_eq_sin_div_cos, div_div]
    have hq : Real.tan (toRadians 5) / Real.cos (toRadians 5) ≤ 0.0875 / 0.9922 := by
      rw [hqval]
      exact div_le_div (by norm_num) hsinu.le (by norm_num) hdenom
    have hq0 : 0 ≤ Real.tan (toRadians 5) / Real.cos (toRadians 5) := by
      rw [hqval]
      positivity
    have harc := arctan_le_self hq0
    have h1 : toAngle (arctan (Real.tan (toRadians 5) / Real.cos (toRadians 5))) ≤
        toAngle (Real.tan (toRadians 5) / Real.cos (toRadians 5)) :=
      toAngle_le_toAngle harc
    have h2 : toAngle (Real.tan (toRadians 5) / Real.cos (toRadians 5)) ≤ 5 + 1 / 2 := by
      unfold toAngle
      rw [div_mul_eq_mul_div, div_le_iff Real.pi_pos]
      nlinarith [hq]
    linarith

theorem midLat10_bounds : 10 ≤ midLat10 ∧ midLat10 ≤ 10 + 1 / 2 := by
  constructor
  · exact midLat_lower (by norm_num) (by norm_num)
  · unfold midLat10
    rw [toRadians_neg_five, Real.cos_neg]
    have hπu := Real.pi_lt_d2
    have hπl := Real.pi_gt_d2
    have hr10u : toRadians 10 < 0.175 := by
      rw [toRadians_eq]
      nlinarith
    have hr10l : 0 < toRadians 10 := toRadians_pos (by norm_num)
    have hsinu : Real.sin (toRadians 10) < 0.175 :=
      lt_trans (Real.sin_lt hr10l) hr10u
    obtain ⟨ha1, ha2⟩ := toRadians_mem_Ioo_half (by norm_num) (by norm_num : (10 : ℝ) < 90)
    obtain ⟨h51, h52⟩ := toRadians_mem_Ioo_half (by norm_num) (by norm_num : (5 : ℝ) < 90)
    have hcos10 : 0 < Real.cos (toRadians 10) := Real.cos_pos_of_mem_Ioo ⟨ha1, ha2⟩
    have hcos5 : 0 < Real.cos (toRadians 5) := Real.cos_pos_of_mem_Ioo ⟨h51, h52⟩
    have hsin0 : 0 ≤ Real.sin (toRadians 10) :=
      Real.sin_nonneg_of_nonneg_of_le_pi hr10l.le (by linarith [Real.pi_pos])
    have hr5u : toRadians 5 < 0.0875 := by
      rw [toRadians_eq]
      nlinarith
    have hr5l : 0 < toRadians 5 := toRadians_pos (by norm_num)
    have hcos10l : (0.9846 : ℝ) ≤ Real.cos (toRadians 10) := by
      have := @Real.one_sub_sq_div_two_le_cos (toRadians 10)
      nlinarith
    have hcos5l : (0.9961 : ℝ) ≤ Real.cos (toRadians 5) := by
      have := @Real.one_sub_sq_div_two_le_cos (toRadians 5)
      nlinarith
    have hdenom : (0.9807 : ℝ) ≤ Real.cos (toRadians 10) * Real.cos (toRadians 5) := by
      have := mul_le_mul hcos10l hcos5l (by norm_num) hcos10.le
      nlinarith
    have hqval : Real.tan (toRadians 10) / Real.cos (toRadians 5) =
        Real.sin (toRadians 10) / (Real.cos (toRadians 10) * Real.cos (toRadians 5)) := by
      rw [Real.tan_eq_sin_div_cos, div_div]
    have hq : Real.tan (toRadians 10) / Real.cos (toRadians 5) ≤ 0.175 / 0.9807 := by
      rw [hqval]
      exact div_le_div (by norm_num) hsinu.le (by norm_num) hdenom
    have hq0 : 0 ≤ Real.tan (toRadians 10) / Real.cos (toRadians 5) := by
      rw [hqval]
      positivity
    have harc := arctan_le_self hq0
    have h1 : toAngle (arctan (Real.tan (toRadians 10) / Real.cos (toRadians 5))) ≤
        toAngle (Real.tan (toRadians 10) / Real.cos (toRadians 5)) :=
      toAngle_le_toAngle harc
    have h2 : toAngle (Real.tan (toRadians 10) / Real.cos (toRadians 5)) ≤ 10 + 1 / 2 := by
      unfold toAngle
      rw [div_mul_eq_mul_div, div_le_iff Real.pi_pos]
      nlinarith [hq]
    linarith

/-- C4: for a polygon whose bounding box is `(0,0)–(10,10)` (such as that
square itself), no area threshold, and an intersection oracle accepting the
candidate cells (for the square, every candidate grid cell does intersect
the polygon), `partition_region` with `edge_proportion = 1/2` returns
exactly four rectangular cells — each of longitude span exactly `5` and
latitude span within `1/2` of `5` (the top edges bulge to `midLat5 ≈ 5.02`
and `midLat10 ≈ 10.04` because geodesic midpoints of parallels lie slightly
poleward) — and with `edge_proportion = 1/3` exactly nine cells. -/
theorem C4_square_partition_cells (ratioGE : Rect → ℝ → Bool)
    (inters : Rect → Bool) (hacc : ∀ r, inters r = true) :
    partitionRegion ⟨⟨0, 0⟩, ⟨10, 10⟩⟩ none ratioGE inters (1 / 2) 2 =
      some [⟨⟨0, 0⟩, ⟨5, midLat5⟩⟩, ⟨⟨5, 0⟩, ⟨10, 5⟩⟩,
        ⟨⟨0, 5⟩, ⟨5, midLat10⟩⟩, ⟨⟨5, midLat5⟩, ⟨10, 10⟩⟩] ∧
    (5 ≤ midLat5 ∧ midLat5 ≤ 5 + 1 / 2) ∧
    (10 ≤ midLat10 ∧ midLat10 ≤ 10 + 1 / 2) ∧
    Option.map List.length
      (partitionRegion ⟨⟨0, 0⟩, ⟨10, 10⟩⟩ none ratioGE inters (1 / 3) 4) =
      some 9 := by
  have hi : inters = fun _ => true := funext hacc
  subst hi
  obtain ⟨hm5a, hm5b⟩ := midLat5_bounds
  obtain ⟨hm10a, hm10b⟩ := midLat10_bounds
  refine ⟨?_, ⟨hm5a, hm5b⟩, ⟨hm10a, hm10b⟩, ?_⟩
  · -- the four lerp values along the vertical axes
    have l1 : lerp (1 / 2) ⟨0, 0⟩ ⟨0, 10⟩ = (⟨0, 5⟩ : Coord) := by
      have h := @lerp_half_meridian 0 0 10 (by norm_num) (by norm_num)
        (by norm_num) (by norm_num) (by norm_num) (by norm_num)
      norm_num at h
      exact h
    have l2 : lerp (1 / 2) ⟨10, 0⟩ ⟨10, 10⟩ = (⟨10, 5⟩ : Coord) := by
      have h := @lerp_half_meridian 10 0 10 (by norm_num) (by norm_num)
        (by norm_num) (by norm_num) (by norm_num) (by norm_num)
      norm_num at h
      exact h
    have l3 : lerp 1 ⟨0, 0⟩ ⟨0, 10⟩ = (⟨0, 10⟩ : Coord) :=
      lerp_one _ (by norm_num) (by norm_num) (by norm_num) (by norm_num)
    have l4 : lerp 1 ⟨10, 0⟩ ⟨10, 10⟩ = (⟨10, 10⟩ : Coord) :=
      lerp_one _ (by norm_num) (by norm_num) (by norm_num) (by norm_num)
    -- the horizontal lerp values
    have l5 : lerp 0 ⟨0, 0⟩ ⟨10, 0⟩ = (⟨0, 0⟩ : Coord) :=
      lerp_zero _ (by norm_num) (by norm_num) (by norm_num) (by norm_num)
    have l6 : lerp (1 / 2) ⟨0, 5⟩ ⟨10, 5⟩ = (⟨5, midLat5⟩ : Coord) := by
      have h := @lerp_half_parallel 0 10 5 (by norm_num) (by norm_num)
        (by norm_num) (by norm_num) (by norm_num) (by norm_num)
      norm_num at h
      rw [h]
      unfold midLat5
      norm_num
    have l7 : lerp (1 / 2) ⟨0, 0⟩ ⟨10, 0⟩ = (⟨5, 0⟩ : Coord) := by
      have h := @lerp_half_parallel 0 10 0 (by norm_num) (by norm_num)
        (by norm_num) (by norm_num) (by norm_num) (by norm_num)
      norm_num at h
      rw [h]
      rw [show toRadians (0 : ℝ) = 0 by rw [toRadians_eq]; ring, Real.tan_zero,
        zero_div, arctan_zero]
      unfold toAngle
      norm_num
    have l8 : lerp 0 ⟨0, 5⟩ ⟨10, 5⟩ = (⟨0, 5⟩ : Coord) :=
      lerp_zero _ (by norm_num) (by norm_num) (by norm_num) (by norm_num)
    have l9 : lerp (1 / 2) ⟨0, 10⟩ ⟨10, 10⟩ = (⟨5, midLat10⟩ : Coord) := by
      have h := @lerp_half_parallel 0 10 10 (by norm_num) (by norm_num)
        (by norm_num) (by norm_num) (by norm_num) (by norm_num)
      norm_num at h
      rw [h]
      unfold midLat10
      norm_num
    have l10 : lerp 1 ⟨0, 5⟩ ⟨10, 5⟩ = (⟨10, 5⟩ : Coord) :=
      lerp_one _ (by norm_num) (by norm_num) (by norm_num) (by norm_num)
    have l11 : lerp 1 ⟨0, 10⟩ ⟨10, 10⟩ = (⟨10, 10⟩ : Coord) :=
      lerp_one _ (by norm_num) (by norm_num) (by norm_num) (by norm_num)
    unfold partitionRegion
    simp only
    rw [show Max.max (1 : ℚ) (1 / 2) = 1 by norm_num]
    simp only [outerSweep, innerSweep, keepCell]
    norm_num
    rw [l1, l2, l3, l4]
    rw [l5, l6, l7, l8, l9, l10, l11]
    rw [Rect.new_of_le (by norm_num : (0 : ℝ) ≤ 5) (by linarith : (0 : ℝ) ≤ midLat5),
      Rect.new_of_le (by norm_num : (5 : ℝ) ≤ 10) (by norm_num : (0 : ℝ) ≤ 5),
      Rect.new_of_le (by norm_num : (0 : ℝ) ≤ 5) (by linarith : (5 : ℝ) ≤ midLat10),
      Rect.new_of_le (by norm_num : (5 : ℝ) ≤ 10) (by linarith : midLat5 ≤ 10)]
    norm_num
  · unfold partitionRegion
    simp only
    rw [show Max.max (1 : ℚ) (1 / 3) = 1 by norm_num]
    simp only [outerSweep, innerSweep, keepCell]
    norm_num

/-- C4 witness: the partition statement with the accepting intersection
oracle instantiated concretely. -/
theorem C4_witness :
    partitionRegion ⟨⟨0, 0⟩, ⟨10, 10⟩⟩ none (fun _ _ => true) (fun _ => true)
      (1 / 2) 2 =
      some [⟨⟨0, 0⟩, ⟨5, midLat5⟩⟩, ⟨⟨5, 0⟩, ⟨10, 5⟩⟩,
        ⟨⟨0, 5⟩, ⟨5, midLat10⟩⟩, ⟨⟨5, midLat5⟩, ⟨10, 10⟩⟩] ∧
    (5 ≤ midLat5 ∧ midLat5 ≤ 5 + 1 / 2) ∧
    (10 ≤ midLat10 ∧ midLat10 ≤ 10 + 1 / 2) ∧
    Option.map List.length
      (partitionRegion ⟨⟨0, 0⟩, ⟨10, 10⟩⟩ none (fun _ _ => true)
        (fun _ => true) (1 / 3) 4) = some 9 :=
  C4_square_partition_cells (fun _ _ => true) (fun _ => true) (fun _ => rfl)

/-- `lerp` at `t = 2` along a meridian from the equator: the blend
`-n1 + 2*n2` lands at latitude `arctan (2 sin β / (2 cos β - 1))`, beyond
`β` itself — the overshoot of the extrapolated interpolation. -/
theorem lerp_two_from_equator {x b : ℝ} (hx1 : -180 < x) (hx2 : x ≤ 180)
    (hk : 0 < 2 * Real.cos (toRadians b) - 1) :
    lerp 2 ⟨x, 0⟩ ⟨x, b⟩ =
      ⟨x, toAngle (arctan (2 * Real.sin (toRadians b) /
        (2 * Real.cos (toRadians b) - 1)))⟩ := by
  obtain ⟨hL1, hL2⟩ := toRadians_mem_Ioc hx1 hx2
  rw [lerp_eq_toCoord_blend]
  have hblend : (1 - (2 : ℝ)) • NVec.ofCoord ⟨x, 0⟩ +
      (2 : ℝ) • NVec.ofCoord ⟨x, b⟩ =
      ⟨Real.cos (toRadians x) * (2 * Real.cos (toRadians b) - 1),
        Real.sin (toRadians x) * (2 * Real.cos (toRadians b) - 1),
        2 * Real.sin (toRadians b)⟩ := by
    have h0 : toRadians (0 : ℝ) = 0 := by rw [toRadians_eq]; ring
    apply NVec.ext_fields <;>
      simp only [NVec.ofCoord, NVec.smul_def, NVec.add_def, h0, Real.cos_zero,
        Real.sin_zero] <;> ring
  rw [hblend]
  unfold NVec.toCoord
  simp only
  have hsq : Real.sin (toRadians x) * (2 * Real.cos (toRadians b) - 1) *
        (Real.sin (toRadians x) * (2 * Real.cos (toRadians b) - 1)) +
      Real.cos (toRadians x) * (2 * Real.cos (toRadians b) - 1) *
        (Real.cos (toRadians x) * (2 * Real.cos (toRadians b) - 1)) =
      (2 * Real.cos (toRadians b) - 1) * (2 * Real.cos (toRadians b) - 1) := by
    nlinarith [Real.sin_sq_add_cos_sq (toRadians x)]
  rw [hsq, Real.sqrt_mul_self hk.le,
    mul_comm (Real.sin (toRadians x)) (2 * Real.cos (toRadians b) - 1),
    mul_comm (Real.cos (toRadians x)) (2 * Real.cos (toRadians b) - 1),
    atan2_scale hk, atan2_sin_cos hL1 hL2, atan2_of_pos hk, toAngle_toRadians]

/-- `lerp` at `t = 2` along a parallel starting at longitude `0`: the
longitude of the result is `arctan (2 sin β / (2 cos β - 1))` (in degrees),
again overshooting the target longitude `β`. -/
theorem lerp_two_parallel_from_zero {b y : ℝ} (hy1 : -90 < y) (hy2 : y < 90)
    (hk : 0 < 2 * Real.cos (toRadians b) - 1) :
    lerp 2 ⟨0, y⟩ ⟨b, y⟩ =
      ⟨toAngle (arctan (2 * Real.sin (toRadians b) /
          (2 * Real.cos (toRadians b) - 1))),
        toAngle (atan2 (Real.sin (toRadians y)) (Real.cos (toRadians y) *
          Real.sqrt (2 * Real.sin (toRadians b) * (2 * Real.sin (toRadians b)) +
            (2 * Real.cos (toRadians b) - 1) *
              (2 * Real.cos (toRadians b) - 1))))⟩ := by
  obtain ⟨hyr1, hyr2⟩ := toRadians_mem_Ioo_half hy1 hy2
  have hcosy : 0 < Real.cos (toRadians y) := Real.cos_pos_of_mem_Ioo ⟨hyr1, hyr2⟩
  rw [lerp_eq_toCoord_blend]
  have hblend : (1 - (2 : ℝ)) • NVec.ofCoord ⟨0, y⟩ +
      (2 : ℝ) • NVec.ofCoord ⟨b, y⟩ =
      ⟨Real.cos (toRadians y) * (2 * Real.cos (toRadians b) - 1),
        Real.cos (toRadians y) * (2 * Real.sin (toRadians b)),
        Real.sin (toRadians y)⟩ := by
    have h0 : toRadians (0 : ℝ) = 0 := by rw [toRadians_eq]; ring
    apply NVec.ext_fields <;>
      simp only [NVec.ofCoord, NVec.smul_def, NVec.add_def, h0, Real.cos_zero,
        Real.sin_zero] <;> ring
  rw [hblend]
  unfold NVec.toCoord
  simp only
  have hsq : Real.cos (toRadians y) * (2 * Real.sin (toRadians b)) *
        (Real.cos (toRadians y) * (2 * Real.sin (toRadians b))) +
      Real.cos (toRadians y) * (2 * Real.cos (toRadians b) - 1) *
        (Real.cos (toRadians y) * (2 * Real.cos (toRadians b) - 1)) =
      Real.cos (toRadians y) * Real.cos (toRadians y) *
        (2 * Real.sin (toRadians b) * (2 * Real.sin (toRadians b)) +
          (2 * Real.cos (toRadians b) - 1) * (2 * Real.cos (toRadians b) - 1)) := by
    ring
  rw [hsq, Real.sqrt_mul (mul_self_nonneg _), Real.sqrt_mul_self hcosy.le,
    atan2_scale hcosy, atan2_of_pos hk]

/-- Longitude (degrees) of the upper-right corner of the single cell that
`partition_region` produces for `edge_proportion = 2` on the bounding box
`(0,0)–(10,10)`: `toAngle (arctan (2 sin 10° / (2 cos 10° - 1))) ≈ 19.7`. -/
noncomputable def overshootLng : ℝ :=
  toAngle (arctan (2 * Real.sin (toRadians 10) /
    (2 * Real.cos (toRadians 10) - 1)))

/-- Latitude (degrees) of that same corner. -/
noncomputable def overshootLat : ℝ :=
  toAngle (atan2
    (Real.sin (arctan (2 * Real.sin (toRadians 10) /
      (2 * Real.cos (toRadians 10) - 1))))
    (Real.cos (arctan (2 * Real.sin (toRadians 10) /
      (2 * Real.cos (toRadians 10) - 1))) *
      Real.sqrt (2 * Real.sin (toRadians 10) * (2 * Real.sin (toRadians 10)) +
        (2 * Real.cos (toRadians 10) - 1) * (2 * Real.cos (toRadians 10) - 1))))

theorem toAngle_zero : toAngle 0 = 0 := by
  unfold toAngle
  ring

theorem cos_toRadians_ten_gt_half : 1 / 2 < 2 * Real.cos (toRadians 10) - 1 := by
  have hπu := Real.pi_lt_d2
  have hπl := Real.pi_gt_d2
  have hr10u : toRadians 10 < 0.175 := by
    rw [toRadians_eq]
    nlinarith
  have hr10l : 0 < toRadians 10 := toRadians_pos (by norm_num)
  have hcosl := @Real.one_sub_sq_div_two_le_cos (toRadians 10)
  nlinarith

theorem sin_toRadians_ten_pos : 0 < Real.sin (toRadians 10) := by
  have hπu := Real.pi_lt_d2
  have hπl := Real.pi_gt_d2
  have hr10u : toRadians 10 < 0.175 := by
    rw [toRadians_eq]
    nlinarith
  have hr10l : 0 < toRadians 10 := toRadians_pos (by norm_num)
  exact Real.sin_pos_of_pos_of_lt_pi hr10l (by nlinarith)

theorem overshootLng_pos : 0 < overshootLng := by
  unfold overshootLng
  rw [← toAngle_zero]
  apply toAngle_lt_toAngle
  rw [← arctan_zero]
  apply arctan_strictMono
  exact div_pos (by linarith [sin_toRadians_ten_pos])
    (by linarith [cos_toRadians_ten_gt_half])

theorem overshootLng_lt_ninety : overshootLng < 90 := by
  unfold overshootLng
  rw [← toAngle_pi_div_two]
  exact toAngle_lt_toAngle (arctan_lt_pi_div_two _)

/-- The overshoot longitude is not `10`: the extrapolated corner lies
strictly outside the bounding box. -/
theorem overshootLng_ne_ten : overshootLng ≠ 10 := by
  unfold overshootLng
  intro heq
  have h10 : toAngle (toRadians 10) = 10 := toAngle_toRadians 10
  have hcoef : (180 / π : ℝ) ≠ 0 := by
    have := Real.pi_pos
    positivity
  have hMeq : arctan (2 * Real.sin (toRadians 10) /
      (2 * Real.cos (toRadians 10) - 1)) = toRadians 10 := by
    have hto : toAngle (arctan (2 * Real.sin (toRadians 10) /
        (2 * Real.cos (toRadians 10) - 1))) = toAngle (toRadians 10) := by
      rw [heq, h10]
    unfold toAngle at hto
    exact mul_left_cancel₀ hcoef hto
  obtain ⟨ha1, ha2⟩ := toRadians_mem_Ioo_half (by norm_num) (by norm_num : (10 : ℝ) < 90)
  have htan : arctan (Real.tan (toRadians 10)) = toRadians 10 := arctan_tan ha1 ha2
  have hqeq := arctan_injective (hMeq.trans htan.symm)
  rw [Real.tan_eq_sin_div_cos] at hqeq
  have hcos10 : 0 < Real.cos (toRadians 10) := Real.cos_pos_of_mem_Ioo ⟨ha1, ha2⟩
  have hk := cos_toRadians_ten_gt_half
  have hs := sin_toRadians_ten_pos
  rw [div_eq_div_iff (by linarith) (by linarith)] at hqeq
  nlinarith

/-- C5: the claim (matching the source's own comment, "this ensures that we
return bbox in cases where edge_proportion > 1.0") says every
`edge_proportion ≥ 1` yields exactly one cell equal to the bounding box.
For `edge_proportion = 1` this holds exactly (first conjunct). But for
`edge_proportion = 2` the single produced cell is *not* the bounding box:
`lerp` overshoots at `t = 2` and the upper-right corner lands at longitude
`overshootLng ≈ 19.7 ≠ 10` (second and third conjuncts). -/
theorem C5_single_cell_but_not_bbox :
    partitionRegion ⟨⟨0, 0⟩, ⟨10, 10⟩⟩ none (fun _ _ => true) (fun _ => true)
      1 1 = some [⟨⟨0, 0⟩, ⟨10, 10⟩⟩] ∧
    partitionRegion ⟨⟨0, 0⟩, ⟨10, 10⟩⟩ none (fun _ _ => true) (fun _ => true)
      2 1 = some [⟨⟨0, 0⟩, ⟨overshootLng, overshootLat⟩⟩] ∧
    (⟨⟨0, 0⟩, ⟨overshootLng, overshootLat⟩⟩ : Rect) ≠ ⟨⟨0, 0⟩, ⟨10, 10⟩⟩ := by
  refine ⟨?_, ?_, ?_⟩
  · have b1 : lerp 1 ⟨0, 0⟩ ⟨0, 10⟩ = (⟨0, 10⟩ : Coord) :=
      lerp_one _ (by norm_num) (by norm_num) (by norm_num) (by norm_num)
    have b2 : lerp 1 ⟨10, 0⟩ ⟨10, 10⟩ = (⟨10, 10⟩ : Coord) :=
      lerp_one _ (by norm_num) (by norm_num) (by norm_num) (by norm_num)
    have b3 : lerp 1 ⟨0, 10⟩ ⟨10, 10⟩ = (⟨10, 10⟩ : Coord) :=
      lerp_one _ (by norm_num) (by norm_num) (by norm_num) (by norm_num)
    have b4 : lerp 0 ⟨0, 0⟩ ⟨10, 0⟩ = (⟨0, 0⟩ : Coord) :=
      lerp_zero _ (by norm_num) (by norm_num) (by norm_num) (by norm_num)
    unfold partitionRegion
    simp only
    rw [show Max.max (1 : ℚ) 1 = 1 by norm_num]
    simp only [outerSweep, innerSweep, keepCell]
    norm_num
    rw [b1, b2, b4, b3,
      Rect.new_of_le (by norm_num : (0 : ℝ) ≤ 10) (by norm_num : (0 : ℝ) ≤ 10)]
  · have hk : 0 < 2 * Real.cos (toRadians 10) - 1 := by
      linarith [cos_toRadians_ten_gt_half]
    have e1 : lerp 0 ⟨0, 0⟩ ⟨10, 0⟩ = (⟨0, 0⟩ : Coord) :=
      lerp_zero _ (by norm_num) (by norm_num) (by norm_num) (by norm_num)
    have e2 : lerp 2 ⟨0, 0⟩ ⟨0, 10⟩ = (⟨0, overshootLng⟩ : Coord) := by
      have h := @lerp_two_from_equator 0 10 (by norm_num) (by norm_num) hk
      rw [h]
      unfold overshootLng
      rfl
    have e3 : lerp 2 ⟨10, 0⟩ ⟨10, 10⟩ = (⟨10, overshootLng⟩ : Coord) := by
      have h := @lerp_two_from_equator 10 10 (by norm_num) (by norm_num) hk
      rw [h]
      unfold overshootLng
      rfl
    have e4 : lerp 2 ⟨0, overshootLng⟩ ⟨10, overshootLng⟩ =
        (⟨overshootLng, overshootLat⟩ : Coord) := by
      have h := @lerp_two_parallel_from_zero 10 overshootLng
        (by linarith [overshootLng_pos]) overshootLng_lt_ninety hk
      rw [h]
      unfold overshootLng overshootLat
      rw [toRadians_toAngle]
    have hlat0 : 0 ≤ overshootLat := by
      unfold overshootLat
      rw [← toAngle_zero]
      apply toAngle_le_toAngle
      apply atan2_nonneg
      · apply Real.sin_nonneg_of_nonneg_of_le_pi
        · rw [← arctan_zero]
          apply (arctan_strictMono.monotone)
          exact le_of_lt (div_pos (by linarith [sin_toRadians_ten_pos])
            (by linarith [cos_toRadians_ten_gt_half]))
        · linarith [arctan_lt_pi_div_two (2 * Real.sin (toRadians 10) /
            (2 * Real.cos (toRadians 10) - 1)), Real.pi_pos]
      · exact mul_nonneg (Real.cos_arctan_pos _).le (Real.sqrt_nonneg _)
    unfold partitionRegion
    simp only
    rw [show Max.max (1 : ℚ) 2 = 2 by norm_num]
    simp only [outerSweep, innerSweep, keepCell]
    norm_num
    rw [e1, e2, e3, e4,
      Rect.new_of_le (by linarith [overshootLng_pos]) hlat0]
  · intro h
    have hx := congrArg (fun r : Rect => r.max.x) h
    simp only at hx
    exact overshootLng_ne_ten hx

end Geos
